import Mathlib

/-!
# flagspy: command line flags before `flag.Parse`

A shallow embedding of `flagspy.go` and theorems about it.

Modelling conventions.

* A Go `string` is a Lean `String`.  Every test the scanner makes compares
  against the ASCII bytes `-`, `=`, `'` and `"`, which never occur inside a
  multi-byte UTF-8 sequence, so positions counted in characters cut the text at
  the same places as positions counted in bytes.
* Go `int` values used as slice bounds are `Int`; the loop counter, which starts
  at `1` and only grows, is a `Nat`.
* A run-time panic is `none`: slicing `s[lo:hi]` panics unless
  `0 ≤ lo ≤ hi ≤ len(s)`.
* A `map[string]string` is its lookup function `String → Option String`; the
  package variable `flags` is `Option FlagTable`, `none` being the `nil` map.
  Reading a `nil` map yields the zero value, as the Go language specifies.
-/

set_option autoImplicit false

namespace Flagspy

/-! ## Go primitives -/

/-- Go `len(s)` as an `int`. -/
def len (s : String) : Int := (s.data.length : Int)

/-- Go `strings.HasPrefix(s, p)`. -/
def hasPrefix (s p : String) : Bool := p.data.isPrefixOf s.data

/-- Go `strings.HasSuffix(s, p)`. -/
def hasSuffix (s p : String) : Bool := p.data.isSuffixOf s.data

/-- Search for `sub` in `s`, the position of `s` being `i`: the first position
at which `sub` is a prefix of what remains, or `-1`. -/
def indexFrom (sub : List Char) : List Char → Int → Int
  | [], i => if sub.isPrefixOf [] then i else -1
  | c :: cs, i => if sub.isPrefixOf (c :: cs) then i else indexFrom sub cs (i + 1)

/-- Go `strings.Index(s, sub)`: the position of the first occurrence of `sub`
in `s`, or `-1` when there is none. -/
def index (s sub : String) : Int := indexFrom sub.data s.data 0

/-- Go slice expression `s[lo:hi]`; `none` is the run-time panic
"slice bounds out of range". -/
def slice (s : String) (lo hi : Int) : Option String :=
  if 0 ≤ lo ∧ lo ≤ hi ∧ hi ≤ len s then
    some ⟨(s.data.take hi.toNat).drop lo.toNat⟩
  else none

/-! ## The flag table -/

/-- A `map[string]string`, as its lookup function. -/
abbrev FlagTable := String → Option String

/-- Result of `make(map[string]string)`. -/
def FlagTable.empty : FlagTable := fun _ => none

/-- Map assignment `m[k] = v`. -/
def FlagTable.set (m : FlagTable) (k v : String) : FlagTable :=
  fun x => if x = k then some v else m x

/-! ## The scan -/

/-- Lines 77-80 of `flagspy.go`: remove a surrounding pair of quotes. -/
def unquote (v : String) : Option String :=
  if (hasPrefix v "'" && hasSuffix v "'") ||
      (hasPrefix v "\"" && hasSuffix v "\"") then
    slice v 1 (len v - 1)
  else some v

/-- The `for` loop of the scan, entered with loop counter `i` and the table
built so far.  `none` is a panic.  Inside the loop `i < len(os.Args)`, so
`len(os.Args) - 1` does not underflow, and the guard `A && B` of line 72 is
the nested test below (`B` is evaluated only when `A` holds). -/
def loop (args : List String) (i : Nat) (flags : FlagTable) : Option FlagTable :=
  if h : i < args.length then
    if args[i] = "--" then
      some flags
    else if hasPrefix args[i] "-" then
      match (if hasPrefix args[i] "--" then slice args[i] 2 (len args[i])
             else slice args[i] 1 (len args[i])) with
      | none => none
      | some f =>
        if index f "=" ≠ -1 then
          match slice f (index f "=" + 1) (len f), slice f 0 (index f "=") with
          | some v, some f' =>
            match unquote v with
            | none => none
            | some v' => loop args (i + 1) (flags.set f' v')
          | _, _ => none
        else if h' : i < args.length - 1 then
          have : i + 1 < args.length := by omega
          if hasPrefix args[i + 1] "-" = false then
            match unquote args[i + 1] with
            | none => none
            | some v' => loop args (i + 1 + 1) (flags.set f v')
          else
            match unquote "" with
            | none => none
            | some v' => loop args (i + 1) (flags.set f v')
        else
          match unquote "" with
          | none => none
          | some v' => loop args (i + 1) (flags.set f v')
    else loop args (i + 1) flags
  else some flags
termination_by args.length - i
decreasing_by all_goals simp_wf; all_goals omega

/-- Go function `initialize` (the word is reserved in Lean, hence the
spelling): the table it leaves in `flags`, or `none` on a panic. -/
def initialise (args : List String) : Option FlagTable :=
  loop args 1 FlagTable.empty

/-! ## Package state, `Get` and `Free` -/

/-- The package variables together with `os.Args`. -/
structure State where
  /-- Value of `os.Args`. -/
  args : List String
  /-- Package variable `flags`; `none` is the `nil` map. -/
  flags : Option FlagTable
  /-- Whether `once` has fired. -/
  onceDone : Bool

/-- State at program start. -/
def State.start (args : List String) : State :=
  { args := args, flags := none, onceDone := false }

/-- Go `once.Do` applied to the scan; `none` when the scan panics. -/
def onceDo (st : State) : Option State :=
  if st.onceDone then some st
  else
    match initialise st.args with
    | none => none
    | some t => some { st with flags := some t, onceDone := true }

/-- Go map read `v, ok := m[name]`, also on a `nil` map. -/
def mapRead (m : Option FlagTable) (name : String) : String × Bool :=
  match m with
  | none => ("", false)
  | some t =>
    match t name with
    | some v => (v, true)
    | none => ("", false)

/-- Go `Get(name)`: the returned pair and the state afterwards; `none` is a
panic. -/
def Get (st : State) (name : String) : Option ((String × Bool) × State) :=
  match onceDo st with
  | none => none
  | some st' => some (mapRead st'.flags name, st')

/-- Go `Free()`. -/
def Free (st : State) : State := { st with flags := none }

/-! ## The loop as a recursion over the remaining tokens -/

/-- The loop of the scan, stated over `os.Args[i:]`, the tokens still to be
read: same body as `loop`, the token `os.Args[i+1]` being the head of the
rest.  `loop_eq_scan` proves the two equal. -/
def scan : List String → FlagTable → Option FlagTable
  | [], flags => some flags
  | a :: rest, flags =>
    if a = "--" then
      some flags
    else if hasPrefix a "-" then
      match (if hasPrefix a "--" then slice a 2 (len a) else slice a 1 (len a)) with
      | none => none
      | some f =>
        if index f "=" ≠ -1 then
          match slice f (index f "=" + 1) (len f), slice f 0 (index f "=") with
          | some v, some f' =>
            match unquote v with
            | none => none
            | some v' => scan rest (flags.set f' v')
          | _, _ => none
        else
          match rest with
          | nxt :: rest' =>
            if hasPrefix nxt "-" = false then
              match unquote nxt with
              | none => none
              | some v' => scan rest' (flags.set f v')
            else
              match unquote "" with
              | none => none
              | some v' => scan (nxt :: rest') (flags.set f v')
          | [] =>
            match unquote "" with
            | none => none
            | some v' => scan [] (flags.set f v')
    else scan rest flags

/-! ## Names and values of a flag token, in the words of the specification -/

/-- A flag token without its dashes: a leading `--` removed if there is one,
else the leading `-`.  Only used for tokens that begin with `-`. -/
def flagBody (tok : String) : List Char :=
  if hasPrefix tok "--" then tok.data.drop 2 else tok.data.drop 1

/-- The derived name of a flag token: the token with a leading `--`, else a
leading `-`, removed and cut before the first `=`. -/
def derivedName (tok : String) : String :=
  ⟨(flagBody tok).takeWhile (fun c => c != '=')⟩

/-- Does the flag token take the next token as its value?  It does when it has
no `=` and there is a next token that does not begin with `-`. -/
def takesNext (tok : String) (next : Option String) : Bool :=
  !(flagBody tok).contains '=' &&
    match next with
    | some nxt => !hasPrefix nxt "-"
    | none => false

/-- The raw value of a flag token: what follows its first `=`, else the next
token when that is taken, else the empty string. -/
def rawValue (tok : String) (next : Option String) : String :=
  if (flagBody tok).contains '=' then
    ⟨((flagBody tok).dropWhile (fun c => c != '=')).drop 1⟩
  else if takesNext tok next then next.getD "" else ""

/-- The final value of a flag token: its raw value with a surrounding pair of
quotes removed; `none` when removing the quotes panics. -/
def flagValue (tok : String) (next : Option String) : Option String :=
  unquote (rawValue tok next)

/-- The entries of the first table, and those of the second for the names the
first does not record. -/
def FlagTable.over (t base : FlagTable) : FlagTable :=
  fun k => match t k with
    | some x => some x
    | none => base k

/-- The flag tokens of a token sequence: the tokens that lie before the first
`--` and begin with `-`, each together with the token that follows it in the
sequence, if any. -/
def flagTokens (toks : List String) : List (String × Option String) :=
  ((toks.zip (toks.tail.map some ++ [none])).takeWhile (fun p => p.1 != "--")).filter
    (fun p => hasPrefix p.1 "-")

/-- The rightmost flag token with the given derived name, together with the
token that follows it. -/
def lastFlag (toks : List String) (name : String) : Option (String × Option String) :=
  ((flagTokens toks).filter (fun p => derivedName p.1 == name)).getLast?

/-! ## The two statements of the loop agree -/

theorem loop_eq_scan (args : List String) :
    ∀ (n i : Nat) (flags : FlagTable), args.length - i = n →
      loop args i flags = scan (args.drop i) flags := by
  intro n
  induction n using Nat.strong_induction_on with
  | _ n ih =>
    intro i flags hn
    rw [loop]
    by_cases hi : i < args.length
    · have hd : args.drop i = args[i] :: args.drop (i + 1) := List.drop_eq_getElem_cons hi
      have ih1 : ∀ fl, loop args (i + 1) fl = scan (args.drop (i + 1)) fl :=
        fun fl => ih (args.length - (i + 1)) (by omega) (i + 1) fl rfl
      have ih2 : ∀ fl, loop args (i + 1 + 1) fl = scan (args.drop (i + 1 + 1)) fl :=
        fun fl => ih (args.length - (i + 1 + 1)) (by omega) (i + 1 + 1) fl rfl
      rw [dif_pos hi, hd, scan]
      simp only [ih1, ih2]
      by_cases hlast : i < args.length - 1
      · have hi1 : i + 1 < args.length := by omega
        have hd1 : args.drop (i + 1) = args[i + 1] :: args.drop (i + 1 + 1) :=
          List.drop_eq_getElem_cons hi1
        simp only [dif_pos hlast, hd1]
      · have hd1 : args.drop (i + 1) = [] := List.drop_eq_nil_of_le (by omega)
        simp only [dif_neg hlast, hd1]
    · rw [dif_neg hi, List.drop_eq_nil_of_le (by omega), scan]

theorem initialise_eq_scan (exe : String) (toks : List String) :
    initialise (exe :: toks) = scan toks FlagTable.empty := by
  unfold initialise
  rw [loop_eq_scan (exe :: toks) _ 1 FlagTable.empty rfl]
  rfl

/-! ## Facts about the Go primitives -/

theorem slice_drop (s : String) (k : Nat) (hk : k ≤ s.data.length) :
    slice s (k : Int) (len s) = some ⟨s.data.drop k⟩ := by
  unfold slice len
  rw [if_pos ⟨by omega, by omega, le_refl _⟩]
  simp only [Int.toNat_ofNat, List.take_length]

theorem slice_take (s : String) (k : Nat) (hk : k ≤ s.data.length) :
    slice s 0 (k : Int) = some ⟨s.data.take k⟩ := by
  unfold slice len
  rw [if_pos ⟨le_refl _, by omega, by omega⟩]
  simp only [Int.toNat_zero, List.drop_zero, Int.toNat_ofNat]

theorem hasPrefix_dash (s : String) :
    hasPrefix s "-" = true ↔ ∃ t, s.data = '-' :: t := by
  unfold hasPrefix
  have e : ("-" : String).data = ['-'] := rfl
  rw [e]
  cases s.data with
  | nil => simp [List.isPrefixOf]
  | cons c cs =>
    simp only [List.isPrefixOf, Bool.and_true, beq_iff_eq, List.cons.injEq, exists_and_left,
      exists_eq', and_true]
    exact eq_comm

theorem hasPrefix_dashdash (s : String) :
    hasPrefix s "--" = true ↔ ∃ t, s.data = '-' :: '-' :: t := by
  unfold hasPrefix
  have e : ("--" : String).data = ['-', '-'] := rfl
  rw [e]
  cases s.data with
  | nil => simp [List.isPrefixOf]
  | cons c cs =>
    cases cs with
    | nil => simp [List.isPrefixOf]
    | cons d ds =>
      simp only [List.isPrefixOf, Bool.and_true, Bool.and_eq_true, beq_iff_eq, List.cons.injEq,
        exists_and_left, exists_eq', and_true]
      exact ⟨fun h => ⟨h.1.symm, h.2.symm⟩, fun h => ⟨h.1.symm, h.2.symm⟩⟩

theorem indexFrom_eq (l : List Char) (i : Int) :
    indexFrom ['='] l i =
      if l.contains '=' then i + ((l.takeWhile (fun c => c != '=')).length : Int) else -1 := by
  induction l generalizing i with
  | nil => simp [indexFrom, List.isPrefixOf]
  | cons c cs ih =>
    unfold indexFrom
    by_cases hc : c = '='
    · subst hc
      simp [List.isPrefixOf]
    · have hc' : ¬ '=' = c := fun h => hc h.symm
      have h1 : List.isPrefixOf ['='] (c :: cs) = false := by
        simp [List.isPrefixOf, hc']
      have h2 : (c != '=') = true := by simp [hc]
      have h3 : (c :: cs).contains '=' = cs.contains '=' := by
        simp [List.contains_cons, hc']
      rw [h1, ih, h3]
      simp only [Bool.false_eq_true, if_false, List.takeWhile_cons, h2, if_true,
        List.length_cons]
      split
      · push_cast; ring
      · rfl

theorem take_length_takeWhile (p : Char → Bool) (l : List Char) :
    l.take (l.takeWhile p).length = l.takeWhile p := by
  induction l with
  | nil => rfl
  | cons c cs ih =>
    by_cases hc : p c = true
    · simp only [List.takeWhile_cons, hc, if_true, List.length_cons, List.take_succ_cons, ih]
    · simp only [List.takeWhile_cons, hc, if_false, List.length_nil, List.take_zero]
      rfl

theorem drop_length_takeWhile (p : Char → Bool) (l : List Char) :
    l.drop (l.takeWhile p).length = l.dropWhile p := by
  induction l with
  | nil => rfl
  | cons c cs ih =>
    by_cases hc : p c = true
    · simp only [List.takeWhile_cons, List.dropWhile_cons, hc, if_true, List.length_cons,
        List.drop_succ_cons, ih]
    · simp only [List.takeWhile_cons, List.dropWhile_cons, hc, if_false, List.length_nil,
        List.drop_zero]
      rfl

theorem length_takeWhile_lt (l : List Char) (h : l.contains '=' = true) :
    (l.takeWhile (fun c => c != '=')).length < l.length := by
  induction l with
  | nil => simp at h
  | cons c cs ih =>
    by_cases hc : c = '='
    · subst hc
      simp
    · have hc' : ¬ '=' = c := fun h => hc h.symm
      have h2 : (c != '=') = true := by simp [hc]
      have h3 : cs.contains '=' = true := by
        simpa [List.contains_cons, hc'] using h
      simp only [List.takeWhile_cons, h2, if_true, List.length_cons]
      have := ih h3
      omega

theorem takeWhile_of_not_contains (l : List Char) (h : ¬ l.contains '=' = true) :
    l.takeWhile (fun c => c != '=') = l := by
  induction l with
  | nil => rfl
  | cons c cs ih =>
    have hc : ¬ c = '=' := by
      intro hc
      subst hc
      exact h (by simp)
    have hc' : ¬ '=' = c := fun h => hc h.symm
    have h2 : (c != '=') = true := by simp [hc]
    have h3 : ¬ cs.contains '=' = true := by
      simpa [List.contains_cons, hc'] using h
    simp only [List.takeWhile_cons, h2, if_true, ih h3]

/-- Lines 61-66: stripping the dashes of a flag token never panics. -/
theorem strip_eq (a : String) (h : hasPrefix a "-" = true) :
    (if hasPrefix a "--" then slice a 2 (len a) else slice a 1 (len a)) =
      some ⟨flagBody a⟩ := by
  unfold flagBody
  by_cases h2 : hasPrefix a "--" = true
  · obtain ⟨t, ht⟩ := (hasPrefix_dashdash a).1 h2
    have := slice_drop a 2 (by rw [ht]; simp)
    rw [if_pos h2, if_pos h2]
    exact_mod_cast this
  · obtain ⟨t, ht⟩ := (hasPrefix_dash a).1 h
    have := slice_drop a 1 (by rw [ht]; simp)
    rw [if_neg h2, if_neg h2]
    exact_mod_cast this

theorem index_eq (b : List Char) :
    index ⟨b⟩ "=" =
      if b.contains '=' then ((b.takeWhile (fun c => c != '=')).length : Int) else -1 := by
  unfold index
  have e : ("=" : String).data = ['='] := rfl
  rw [e, indexFrom_eq]
  simp

theorem index_ne (b : List Char) : index ⟨b⟩ "=" ≠ -1 ↔ b.contains '=' = true := by
  rw [index_eq]
  split
  · rename_i h
    simp only [h, iff_true]
    omega
  · rename_i h
    simp only [ne_eq, not_true_eq_false, false_iff]
    exact h

/-- Lines 70-71: splitting at the first `=` never panics. -/
theorem split_eq (b : List Char) (h : b.contains '=' = true) :
    slice ⟨b⟩ (index ⟨b⟩ "=" + 1) (len ⟨b⟩) =
        some ⟨(b.dropWhile (fun c => c != '=')).drop 1⟩ ∧
      slice ⟨b⟩ 0 (index ⟨b⟩ "=") = some ⟨b.takeWhile (fun c => c != '=')⟩ := by
  rw [index_eq, if_pos h]
  have hlt := length_takeWhile_lt b h
  constructor
  · have := slice_drop ⟨b⟩ ((b.takeWhile (fun c => c != '=')).length + 1) hlt
    rw [← drop_length_takeWhile, List.drop_drop]
    exact_mod_cast this
  · have := slice_take ⟨b⟩ (b.takeWhile (fun c => c != '=')).length (le_of_lt hlt)
    rw [this]
    show some (String.mk _) = some (String.mk _)
    rw [take_length_takeWhile]

theorem unquote_empty : unquote "" = some "" := by decide

/-- One turn of the loop, in the words of the specification. -/
theorem scan_cons (a : String) (rest : List String) (fl : FlagTable) :
    scan (a :: rest) fl =
      if a = "--" then some fl
      else if hasPrefix a "-" then
        match flagValue a rest.head? with
        | none => none
        | some v =>
          scan (if takesNext a rest.head? then rest.tail else rest) (fl.set (derivedName a) v)
      else scan rest fl := by
  rw [scan]
  by_cases h0 : a = "--"
  · simp only [if_pos h0]
  · rw [if_neg h0, if_neg h0]
    by_cases h1 : hasPrefix a "-" = true
    · rw [if_pos h1, if_pos h1, strip_eq a h1]
      simp only [flagValue, rawValue, takesNext, derivedName]
      by_cases h2 : (flagBody a).contains '=' = true
      · have h3 := (index_ne (flagBody a)).2 h2
        obtain ⟨e1, e2⟩ := split_eq (flagBody a) h2
        simp only [if_pos h3, e1, e2, h2, if_true, Bool.not_true, Bool.false_and,
          Bool.false_eq_true, if_false]
      · have h3 : ¬ index ⟨flagBody a⟩ "=" ≠ -1 := fun h => h2 ((index_ne _).1 h)
        simp only [if_neg h3, h2, if_false, Bool.not_false, Bool.true_and,
          takeWhile_of_not_contains _ h2]
        cases rest with
        | nil => simp [unquote_empty]
        | cons nxt rest' =>
          by_cases h4 : hasPrefix nxt "-" = true
          · simp [h4, unquote_empty]
          · simp [h4]
    · rw [if_neg h1, if_neg h1]

/-! ## General facts about the scan -/

/-- Induction over token sequences that follows the scan: a turn of the loop
continues with the rest or, after a consumed value, with the rest of the
rest. -/
theorem scan_induction {P : List String → Prop} (hnil : P [])
    (hcons : ∀ a rest, P rest → P rest.tail → P (a :: rest)) : ∀ l, P l := by
  have key : ∀ l, P l ∧ P l.tail := by
    intro l
    induction l with
    | nil => exact ⟨hnil, hnil⟩
    | cons a rest ih => exact ⟨hcons a rest ih.1 ih.2, ih.1⟩
  exact fun l => (key l).1

theorem over_empty (t : FlagTable) : FlagTable.empty.over t = t := by
  funext k
  rfl

theorem over_set (t t0 : FlagTable) (f v : String) :
    t.over (t0.set f v) = (t.over (FlagTable.empty.set f v)).over t0 := by
  funext k
  unfold FlagTable.over FlagTable.set FlagTable.empty
  cases t k with
  | some x => rfl
  | none =>
    by_cases hk : k = f
    · simp only [if_pos hk]
    · simp only [if_neg hk]

/-- The table the scan starts from only shows through where the scan records
nothing. -/
theorem scan_over : ∀ (toks : List String) (t0 : FlagTable),
    scan toks t0 = (scan toks FlagTable.empty).map (fun t => t.over t0) := by
  intro toks
  induction toks using scan_induction with
  | hnil =>
    intro t0
    simp only [scan, Option.map_some', over_empty]
  | hcons a rest ih1 ih2 =>
    intro t0
    rw [scan_cons a rest t0, scan_cons a rest FlagTable.empty]
    by_cases h0 : a = "--"
    · simp only [if_pos h0, Option.map_some', over_empty]
    · rw [if_neg h0, if_neg h0]
      by_cases h1 : hasPrefix a "-" = true
      · rw [if_pos h1, if_pos h1]
        cases flagValue a rest.head? with
        | none => rfl
        | some v =>
          have ih : ∀ t0, scan (if takesNext a rest.head? then rest.tail else rest) t0 =
              (scan (if takesNext a rest.head? then rest.tail else rest) FlagTable.empty).map
                (fun t => t.over t0) := by
            split
            · exact ih2
            · exact ih1
          show scan _ _ = Option.map _ (scan _ _)
          rw [ih (t0.set (derivedName a) v), ih (FlagTable.empty.set (derivedName a) v)]
          rw [Option.map_map]
          congr 1
          funext t
          exact over_set t t0 (derivedName a) v
      · rw [if_neg h1, if_neg h1]
        exact ih1 t0

theorem takesNext_terminator (a : String) : takesNext a (some "--") = false := by
  unfold takesNext
  have : hasPrefix "--" "-" = true := by decide
  simp [this]

theorem takesNext_none (a : String) : takesNext a none = false := by
  unfold takesNext
  simp

theorem flagValue_terminator (a : String) : flagValue a (some "--") = flagValue a none := by
  unfold flagValue rawValue
  rw [takesNext_terminator, takesNext_none]
  simp only [Bool.false_eq_true, if_false]

/-- Scanning stops at `--`: what follows it makes no difference. -/
theorem scan_terminator (post : List String) : ∀ (pre : List String) (t0 : FlagTable),
    scan (pre ++ "--" :: post) t0 = scan pre t0 := by
  intro pre
  induction pre using scan_induction with
  | hnil =>
    intro t0
    rw [List.nil_append, scan_cons, if_pos rfl, scan]
  | hcons a rest ih1 ih2 =>
    intro t0
    rw [List.cons_append, scan_cons a _ t0, scan_cons a rest t0]
    by_cases h0 : a = "--"
    · rw [if_pos h0, if_pos h0]
    · rw [if_neg h0, if_neg h0]
      by_cases h1 : hasPrefix a "-" = true
      · rw [if_pos h1, if_pos h1]
        cases rest with
        | nil =>
          simp only [List.nil_append, List.head?_cons, List.head?_nil, flagValue_terminator,
            takesNext_terminator, takesNext_none, Bool.false_eq_true, if_false]
          cases flagValue a none with
          | none => rfl
          | some v =>
            show scan ("--" :: post) _ = scan [] _
            rw [scan_cons, if_pos rfl, scan]
        | cons nxt rest' =>
          simp only [List.cons_append, List.head?_cons, List.tail_cons]
          cases flagValue a (some nxt) with
          | none => rfl
          | some v =>
            show scan _ _ = scan _ _
            by_cases h2 : takesNext a (some nxt) = true
            · rw [if_pos h2, if_pos h2]
              exact ih2 _
            · rw [if_neg h2, if_neg h2]
              exact ih1 _
      · rw [if_neg h1, if_neg h1]
        exact ih1 t0

/-- The first `Get` of a program run reads the table of the scan. -/
theorem Get_start (exe : String) (toks : List String) (name : String) :
    (Get (State.start (exe :: toks)) name).map Prod.fst =
      (scan toks FlagTable.empty).map (fun t => mapRead (some t) name) := by
  unfold Get onceDo State.start
  simp only [Bool.false_eq_true, if_false, initialise_eq_scan]
  cases scan toks FlagTable.empty with
  | none => rfl
  | some t => rfl

/-! ## Facts about single tokens -/

theorem unquote_plain (v : String)
    (h1 : ¬ (hasPrefix v "'" = true ∧ hasSuffix v "'" = true))
    (h2 : ¬ (hasPrefix v "\"" = true ∧ hasSuffix v "\"" = true)) :
    unquote v = some v := by
  unfold unquote
  rw [if_neg]
  simp only [Bool.or_eq_true, Bool.and_eq_true]
  exact fun h => h.elim h1 h2

theorem slice_mid (v : String) (q r : Char) (s : List Char) (hv : v.data = q :: (s ++ [r])) :
    slice v 1 (len v - 1) = some ⟨s⟩ := by
  unfold slice len
  have hl : v.data.length = s.length + 2 := by rw [hv]; simp
  rw [if_pos ⟨by omega, by omega, by omega⟩]
  have e1 : ((v.data.length : Int) - 1).toNat = s.length + 1 := by omega
  have e2 : (1 : Int).toNat = 1 := rfl
  rw [e1, e2, hv]
  simp

theorem hasSuffix_last (v p : String) (q : Char) (s : List Char) (hp : p.data = [q])
    (hv : v.data = s ++ [q]) : hasSuffix v p = true := by
  unfold hasSuffix List.isSuffixOf
  rw [hp, hv]
  simp [List.isPrefixOf]

theorem hasPrefix_first (v p : String) (q : Char) (s : List Char) (hp : p.data = [q])
    (hv : v.data = q :: s) : hasPrefix v p = true := by
  unfold hasPrefix
  rw [hp, hv]
  simp [List.isPrefixOf]

/-- A value wrapped in a pair of quotes loses exactly that pair. -/
theorem unquote_wrapped (v : String) (q : Char) (s : List Char)
    (hq : q = '\'' ∨ q = '"') (hv : v.data = q :: (s ++ [q])) :
    unquote v = some ⟨s⟩ := by
  have hv' : v.data = (q :: s) ++ [q] := by rw [hv]; rfl
  unfold unquote
  rw [if_pos, slice_mid v q q s hv]
  rcases hq with hq | hq
  · subst hq
    rw [hasPrefix_first v "'" _ _ rfl hv, hasSuffix_last v "'" _ _ rfl hv']
    rfl
  · subst hq
    rw [hasPrefix_first v "\"" _ _ rfl hv, hasSuffix_last v "\"" _ _ rfl hv']
    simp

theorem hasPrefix_dash_false (b : List Char) (h : hasPrefix ⟨b⟩ "-" = false) (t : List Char) :
    b ≠ '-' :: t := by
  intro hb
  have := (hasPrefix_dash ⟨b⟩).2 ⟨t, hb⟩
  rw [h] at this
  exact Bool.false_ne_true this

/-- A token made of one dash and a body that does not begin with a dash. -/
theorem flag_single (a : String) (b : List Char) (ha : a.data = '-' :: b)
    (hb : hasPrefix ⟨b⟩ "-" = false) :
    a ≠ "--" ∧ hasPrefix a "-" = true ∧ flagBody a = b := by
  have h2 : ¬ hasPrefix a "--" = true := by
    intro h
    obtain ⟨t, ht⟩ := (hasPrefix_dashdash a).1 h
    rw [ha] at ht
    exact hasPrefix_dash_false b hb t (List.cons.inj ht).2
  refine ⟨?_, (hasPrefix_dash a).2 ⟨b, ha⟩, ?_⟩
  · intro h
    apply h2
    rw [h]
    decide
  · unfold flagBody
    rw [if_neg h2, ha]
    rfl

/-- A token made of two dashes and a body that is not empty. -/
theorem flag_double (a : String) (b : List Char) (ha : a.data = '-' :: '-' :: b)
    (hb : b ≠ []) :
    a ≠ "--" ∧ hasPrefix a "-" = true ∧ flagBody a = b := by
  have h2 : hasPrefix a "--" = true := (hasPrefix_dashdash a).2 ⟨b, ha⟩
  refine ⟨?_, (hasPrefix_dash a).2 ⟨'-' :: b, ha⟩, ?_⟩
  · intro h
    rw [h] at ha
    have e : ("--" : String).data = ['-', '-'] := rfl
    rw [e] at ha
    exact hb (List.cons.inj (List.cons.inj ha).2).2.symm
  · unfold flagBody
    rw [if_pos h2, ha]
    rfl

theorem contains_inline (n v : List Char) : (n ++ '=' :: v).contains '=' = true := by
  simp

theorem takeWhile_inline (n v : List Char) (hn : '=' ∉ n) :
    (n ++ '=' :: v).takeWhile (fun c => c != '=') = n := by
  induction n with
  | nil => simp
  | cons c cs ih =>
    have hc : ¬ c = '=' := fun h => hn (by rw [h]; exact List.mem_cons_self _ _)
    have h2 : (c != '=') = true := by simp [hc]
    have h3 : '=' ∉ cs := fun h => hn (List.mem_cons_of_mem _ h)
    simp only [List.cons_append, List.takeWhile_cons, h2, if_true, ih h3]

theorem dropWhile_inline (n v : List Char) (hn : '=' ∉ n) :
    ((n ++ '=' :: v).dropWhile (fun c => c != '=')).drop 1 = v := by
  induction n with
  | nil => simp
  | cons c cs ih =>
    have hc : ¬ c = '=' := fun h => hn (by rw [h]; exact List.mem_cons_self _ _)
    have h2 : (c != '=') = true := by simp [hc]
    have h3 : '=' ∉ cs := fun h => hn (List.mem_cons_of_mem _ h)
    simp only [List.cons_append, List.dropWhile_cons, h2, if_true, ih h3]

theorem not_contains_of_not_mem (n : List Char) (hn : '=' ∉ n) : ¬ n.contains '=' = true := by
  simpa using hn

/-- A flag token whose body is `name=value`: its name, and its raw value
whatever follows. -/
theorem inline_token (a : String) (n v : List Char) (hb : flagBody a = n ++ '=' :: v)
    (hn : '=' ∉ n) (next : Option String) :
    derivedName a = ⟨n⟩ ∧ rawValue a next = ⟨v⟩ ∧ takesNext a next = false := by
  unfold derivedName rawValue takesNext
  rw [hb, contains_inline, takeWhile_inline n v hn, dropWhile_inline n v hn]
  simp

/-- A flag token whose body is a name without `=`, followed by a token that
does not begin with a dash. -/
theorem lookahead_token (a : String) (n : List Char) (hb : flagBody a = n) (hn : '=' ∉ n)
    (nxt : String) (hnxt : hasPrefix nxt "-" = false) :
    derivedName a = ⟨n⟩ ∧ rawValue a (some nxt) = nxt ∧ takesNext a (some nxt) = true := by
  have hc := not_contains_of_not_mem n hn
  unfold derivedName rawValue takesNext
  rw [hb, takeWhile_of_not_contains n hc]
  simp [hn, hnxt]

/-! ## Flags at the head of the token sequence -/

theorem data_ne_nil (n : String) (hn : n ≠ "") : n.data ≠ [] := by
  intro h
  apply hn
  apply String.ext
  rw [h]

theorem hasPrefix_append_false (n : String) (x : List Char) (hn : n ≠ "")
    (hd : hasPrefix n "-" = false) : hasPrefix ⟨n.data ++ x⟩ "-" = false := by
  cases hp : hasPrefix ⟨n.data ++ x⟩ "-" with
  | false => rfl
  | true =>
    obtain ⟨t, ht⟩ := (hasPrefix_dash _).1 hp
    have hne := data_ne_nil n hn
    cases hnd : n.data with
    | nil => exact absurd hnd hne
    | cons c cs =>
      rw [show (String.mk (n.data ++ x)).data = n.data ++ x from rfl, hnd] at ht
      have hc : c = '-' := (List.cons.inj ht).1
      have : hasPrefix n "-" = true := (hasPrefix_dash n).2 ⟨cs, by rw [hnd, hc]⟩
      rw [hd] at this
      exact absurd this Bool.false_ne_true

/-- A flag with an inline value at the head of the tokens: the scan records it
under the table of the rest. -/
theorem scan_inline_token (a n v v' : String) (rest : List String)
    (h0 : a ≠ "--") (h1 : hasPrefix a "-" = true)
    (hb : flagBody a = n.data ++ '=' :: v.data) (hn : '=' ∉ n.data)
    (hv : unquote v = some v') :
    scan (a :: rest) FlagTable.empty =
      (scan rest FlagTable.empty).map (fun t => t.over (FlagTable.empty.set n v')) := by
  obtain ⟨e1, e2, e3⟩ := inline_token a n.data v.data hb hn rest.head?
  rw [scan_cons, if_neg h0, if_pos h1]
  unfold flagValue
  rw [e1, e2, e3]
  show (match unquote v with
    | none => none
    | some w => scan (if false = true then rest.tail else rest) (FlagTable.empty.set n w)) = _
  rw [hv]
  simp only [Bool.false_eq_true, if_false]
  exact scan_over rest _

/-- A flag without `=` at the head of the tokens, followed by a token that does
not begin with a dash: the scan records the flag with that token as its value,
under the table of what follows the value. -/
theorem scan_lookahead_token (a n nxt v' : String) (rest : List String)
    (h0 : a ≠ "--") (h1 : hasPrefix a "-" = true)
    (hb : flagBody a = n.data) (hn : '=' ∉ n.data)
    (hnxt : hasPrefix nxt "-" = false) (hv : unquote nxt = some v') :
    scan (a :: nxt :: rest) FlagTable.empty =
      (scan rest FlagTable.empty).map (fun t => t.over (FlagTable.empty.set n v')) := by
  obtain ⟨e1, e2, e3⟩ := lookahead_token a n.data hb hn nxt hnxt
  rw [scan_cons, if_neg h0, if_pos h1]
  unfold flagValue
  simp only [List.head?_cons, List.tail_cons]
  rw [e1, e2, e3]
  show (match unquote nxt with
    | none => none
    | some w => scan (if true = true then rest else nxt :: rest) (FlagTable.empty.set n w)) = _
  rw [hv]
  simp only [if_true]
  exact scan_over rest _

theorem single_inline_data (n v : String) :
    ("-" ++ n ++ "=" ++ v).data = '-' :: (n.data ++ '=' :: v.data) := by
  simp only [String.data_append]
  simp only [List.append_assoc, List.cons_append, List.nil_append]

theorem double_inline_data (n v : String) :
    ("--" ++ n ++ "=" ++ v).data = '-' :: '-' :: (n.data ++ '=' :: v.data) := by
  simp only [String.data_append]
  simp only [List.append_assoc, List.cons_append, List.nil_append]

theorem single_data (n : String) : ("-" ++ n).data = '-' :: n.data := by
  simp only [String.data_append]
  rfl

theorem double_data (n : String) : ("--" ++ n).data = '-' :: '-' :: n.data := by
  simp only [String.data_append]
  rfl

theorem scan_single_inline (n v v' : String) (rest : List String) (hn : n ≠ "")
    (heq : '=' ∉ n.data) (hdash : hasPrefix n "-" = false) (hv : unquote v = some v') :
    scan (("-" ++ n ++ "=" ++ v) :: rest) FlagTable.empty =
      (scan rest FlagTable.empty).map (fun t => t.over (FlagTable.empty.set n v')) := by
  obtain ⟨h0, h1, hb⟩ := flag_single _ _ (single_inline_data n v)
    (hasPrefix_append_false n _ hn hdash)
  exact scan_inline_token _ n v v' rest h0 h1 hb heq hv

theorem scan_double_inline (n v v' : String) (rest : List String)
    (heq : '=' ∉ n.data) (hv : unquote v = some v') :
    scan (("--" ++ n ++ "=" ++ v) :: rest) FlagTable.empty =
      (scan rest FlagTable.empty).map (fun t => t.over (FlagTable.empty.set n v')) := by
  obtain ⟨h0, h1, hb⟩ := flag_double _ _ (double_inline_data n v) (by simp)
  exact scan_inline_token _ n v v' rest h0 h1 hb heq hv

theorem scan_single_lookahead (n nxt v' : String) (rest : List String)
    (heq : '=' ∉ n.data) (hdash : hasPrefix n "-" = false)
    (hnxt : hasPrefix nxt "-" = false) (hv : unquote nxt = some v') :
    scan (("-" ++ n) :: nxt :: rest) FlagTable.empty =
      (scan rest FlagTable.empty).map (fun t => t.over (FlagTable.empty.set n v')) := by
  have hd : hasPrefix ⟨n.data⟩ "-" = false := hdash
  obtain ⟨h0, h1, hb⟩ := flag_single _ _ (single_data n) hd
  exact scan_lookahead_token _ n nxt v' rest h0 h1 hb heq hnxt hv

theorem scan_double_lookahead (n nxt v' : String) (rest : List String) (hn : n ≠ "")
    (heq : '=' ∉ n.data)
    (hnxt : hasPrefix nxt "-" = false) (hv : unquote nxt = some v') :
    scan (("--" ++ n) :: nxt :: rest) FlagTable.empty =
      (scan rest FlagTable.empty).map (fun t => t.over (FlagTable.empty.set n v')) := by
  obtain ⟨h0, h1, hb⟩ := flag_double _ _ (double_data n) (data_ne_nil n hn)
  exact scan_lookahead_token _ n nxt v' rest h0 h1 hb heq hnxt hv

/-! ## The table of a completed scan -/

theorem flagTokens_nil : flagTokens [] = [] := rfl

theorem flagTokens_cons (a : String) (rest : List String) :
    flagTokens (a :: rest) =
      if a = "--" then []
      else if hasPrefix a "-" then (a, rest.head?) :: flagTokens rest
      else flagTokens rest := by
  have hz : (a :: rest).zip ((a :: rest).tail.map some ++ [none]) =
      (a, rest.head?) :: rest.zip (rest.tail.map some ++ [none]) := by
    cases rest with
    | nil => rfl
    | cons b r => rfl
  unfold flagTokens
  rw [hz, List.takeWhile_cons]
  by_cases h0 : a = "--"
  · simp [h0]
  · have hb : ((a, rest.head?).1 != "--") = true := by simp [h0]
    rw [if_pos hb, if_neg h0, List.filter_cons]

/-- A consumed value is no flag token. -/
theorem flagTokens_rem (a : String) (rest : List String) :
    flagTokens (if takesNext a rest.head? then rest.tail else rest) = flagTokens rest := by
  by_cases h : takesNext a rest.head? = true
  · rw [if_pos h]
    cases rest with
    | nil => rfl
    | cons nxt rest' =>
      have hn : hasPrefix nxt "-" = false := by
        unfold takesNext at h
        simp only [List.head?_cons, Bool.and_eq_true, Bool.not_eq_true'] at h
        exact h.2
      have h0 : nxt ≠ "--" := by
        intro e
        rw [e] at hn
        exact absurd hn (by decide)
      rw [List.tail_cons, flagTokens_cons, if_neg h0, hn]
      rfl
  · rw [if_neg h]

theorem lastFlag_cons_flag (a : String) (rest : List String) (k : String)
    (h0 : a ≠ "--") (h1 : hasPrefix a "-" = true) :
    lastFlag (a :: rest) k =
      if derivedName a = k then some ((lastFlag rest k).getD (a, rest.head?))
      else lastFlag rest k := by
  unfold lastFlag
  rw [flagTokens_cons, if_neg h0, if_pos h1, List.filter_cons]
  by_cases hk : derivedName a = k
  · have : (derivedName (a, rest.head?).1 == k) = true := by simpa using hk
    rw [if_pos this, if_pos hk, List.getLast?_cons]
  · have : ¬ (derivedName (a, rest.head?).1 == k) = true := by simpa using hk
    rw [if_neg this, if_neg hk]

/-- The table of a completed scan: a name holds the final value of its last
flag token, and the table the scan started from shows through for the names
without a flag token. -/
theorem scan_lookup : ∀ (toks : List String) (t0 t : FlagTable), scan toks t0 = some t →
    ∀ k, (lastFlag toks k = none → t k = t0 k) ∧
      (∀ p, lastFlag toks k = some p → ∃ v, flagValue p.1 p.2 = some v ∧ t k = some v) := by
  intro toks
  induction toks using scan_induction with
  | hnil =>
    intro t0 t h k
    rw [scan] at h
    cases h
    exact ⟨fun _ => rfl, fun p hp => by cases hp⟩
  | hcons a rest ih1 ih2 =>
    intro t0 t h k
    rw [scan_cons] at h
    by_cases h0 : a = "--"
    · rw [if_pos h0] at h
      cases h
      have : lastFlag (a :: rest) k = none := by
        unfold lastFlag
        rw [flagTokens_cons, if_pos h0]
        rfl
      rw [this]
      exact ⟨fun _ => rfl, fun p hp => by cases hp⟩
    · rw [if_neg h0] at h
      by_cases h1 : hasPrefix a "-" = true
      · rw [if_pos h1] at h
        cases hv : flagValue a rest.head? with
        | none =>
          rw [hv] at h
          cases h
        | some v =>
          rw [hv] at h
          have ih : (lastFlag rest k = none → t k = (t0.set (derivedName a) v) k) ∧
              (∀ p, lastFlag rest k = some p →
                ∃ v, flagValue p.1 p.2 = some v ∧ t k = some v) := by
            have hl : lastFlag (if takesNext a rest.head? then rest.tail else rest) k =
                lastFlag rest k := by
              unfold lastFlag
              rw [flagTokens_rem]
            rw [← hl]
            by_cases hn : takesNext a rest.head? = true
            · rw [if_pos hn] at h ⊢
              exact ih2 _ t h k
            · rw [if_neg hn] at h ⊢
              exact ih1 _ t h k
          rw [lastFlag_cons_flag a rest k h0 h1]
          by_cases hk : derivedName a = k
          · rw [if_pos hk]
            refine ⟨fun hnone => Option.noConfusion hnone, ?_⟩
            intro p hp
            cases hl : lastFlag rest k with
            | none =>
              rw [hl] at hp
              have hp' : p = (a, rest.head?) := (Option.some.inj hp).symm
              subst hp'
              refine ⟨v, hv, ?_⟩
              rw [ih.1 hl]
              unfold FlagTable.set
              rw [if_pos hk.symm]
            | some q =>
              rw [hl] at hp
              have hp' : p = q := (Option.some.inj hp).symm
              subst hp'
              exact ih.2 p hl
          · rw [if_neg hk]
            refine ⟨?_, ih.2⟩
            intro hnone
            rw [ih.1 hnone]
            unfold FlagTable.set
            rw [if_neg (fun e => hk e.symm)]
      · rw [if_neg h1] at h
        have : lastFlag (a :: rest) k = lastFlag rest k := by
          unfold lastFlag
          rw [flagTokens_cons, if_neg h0, if_neg h1]
        rw [this]
        exact ih1 t0 t h k

theorem mem_flagTokens : ∀ (toks : List String) (p : String × Option String),
    p ∈ flagTokens toks →
      p.1 ∈ toks.takeWhile (fun s => s != "--") ∧ hasPrefix p.1 "-" = true := by
  intro toks
  induction toks with
  | nil =>
    intro p hp
    rw [flagTokens_nil] at hp
    cases hp
  | cons a rest ih =>
    intro p hp
    rw [flagTokens_cons] at hp
    by_cases h0 : a = "--"
    · rw [if_pos h0] at hp
      cases hp
    · have hb : (a != "--") = true := by simp [h0]
      rw [if_neg h0] at hp
      rw [List.takeWhile_cons, if_pos hb]
      by_cases h1 : hasPrefix a "-" = true
      · rw [if_pos h1] at hp
        rcases List.mem_cons.1 hp with e | hmem
        · subst e
          exact ⟨List.mem_cons_self _ _, h1⟩
        · exact ⟨List.mem_cons_of_mem _ (ih p hmem).1, (ih p hmem).2⟩
      · rw [if_neg h1] at hp
        exact ⟨List.mem_cons_of_mem _ (ih p hp).1, (ih p hp).2⟩

theorem flagTokens_complete : ∀ (toks : List String) (tok : String),
    tok ∈ toks.takeWhile (fun s => s != "--") → hasPrefix tok "-" = true →
      ∃ nx, (tok, nx) ∈ flagTokens toks := by
  intro toks
  induction toks with
  | nil =>
    intro tok hmem
    cases hmem
  | cons a rest ih =>
    intro tok hmem hd
    rw [List.takeWhile_cons] at hmem
    by_cases h0 : a = "--"
    · have hb : ¬ (a != "--") = true := by simp [h0]
      rw [if_neg hb] at hmem
      cases hmem
    · have hb : (a != "--") = true := by simp [h0]
      rw [if_pos hb] at hmem
      rw [flagTokens_cons, if_neg h0]
      rcases List.mem_cons.1 hmem with e | hrest
      · subst e
        rw [if_pos hd]
        exact ⟨rest.head?, List.mem_cons_self _ _⟩
      · obtain ⟨nx, hnx⟩ := ih tok hrest hd
        by_cases h1 : hasPrefix a "-" = true
        · rw [if_pos h1]
          exact ⟨nx, List.mem_cons_of_mem _ hnx⟩
        · rw [if_neg h1]
          exact ⟨nx, hnx⟩

theorem lastFlag_eq_none_iff (toks : List String) (k : String) :
    lastFlag toks k = none ↔ ∀ p ∈ flagTokens toks, derivedName p.1 ≠ k := by
  unfold lastFlag
  rw [List.getLast?_eq_none_iff, List.filter_eq_nil_iff]
  simp only [beq_iff_eq]

theorem lastFlag_some_mem (toks : List String) (k : String) (p : String × Option String)
    (h : lastFlag toks k = some p) : p ∈ flagTokens toks ∧ derivedName p.1 = k := by
  unfold lastFlag at h
  have := List.mem_filter.1 (List.mem_of_getLast?_eq_some h)
  exact ⟨this.1, by simpa using this.2⟩

/-- A name is a key of the table of a completed scan exactly when some flag
token has it as its derived name. -/
theorem scan_key_iff (toks : List String) (t : FlagTable)
    (h : scan toks FlagTable.empty = some t) (k : String) :
    t k ≠ none ↔ ∃ p ∈ flagTokens toks, derivedName p.1 = k := by
  obtain ⟨ha, hb⟩ := scan_lookup toks FlagTable.empty t h k
  constructor
  · intro hk
    cases hl : lastFlag toks k with
    | none => exact absurd (ha hl) hk
    | some p => exact ⟨p, lastFlag_some_mem toks k p hl⟩
  · rintro ⟨p, hp, hpk⟩
    cases hl : lastFlag toks k with
    | none => exact absurd hpk ((lastFlag_eq_none_iff toks k).1 hl p hp)
    | some q =>
      obtain ⟨v, _, hv⟩ := hb q hl
      rw [hv]
      exact Option.some_ne_none v

/-- What the first `Get` returns, from the table of the scan. -/
theorem Get_start_of_scan (exe : String) (toks : List String) (t : FlagTable)
    (h : scan toks FlagTable.empty = some t) (name : String) :
    (Get (State.start (exe :: toks)) name).map Prod.fst = some (mapRead (some t) name) := by
  rw [Get_start, h]
  rfl

theorem Get_returns (st st' : State) (name : String) (r : String × Bool)
    (h : Get st name = some (r, st')) : r = mapRead st'.flags name := by
  unfold Get at h
  cases ho : onceDo st with
  | none =>
    rw [ho] at h
    cases h
  | some s =>
    rw [ho] at h
    cases h
    rfl

theorem mapRead_absent (m : Option FlagTable) (name v : String)
    (h : mapRead m name = (v, false)) : v = "" := by
  unfold mapRead at h
  cases m with
  | none =>
    exact ((Prod.mk.inj h).1).symm
  | some t =>
    cases ht : t name with
    | none =>
      simp only [ht] at h
      exact ((Prod.mk.inj h).1).symm
    | some w =>
      simp only [ht] at h
      exact absurd (Prod.mk.inj h).2 (by decide)

/-- A derived name that begins with a dash comes from a token that begins
with three. -/
theorem derivedName_dash (tok : String) (h1 : hasPrefix tok "-" = true)
    (hk : hasPrefix (derivedName tok) "-" = true) : hasPrefix tok "---" = true := by
  obtain ⟨t, ht⟩ := (hasPrefix_dash _).1 hk
  have hbody : ∃ r, flagBody tok = '-' :: r := by
    unfold derivedName at ht
    have ht' : (flagBody tok).takeWhile (fun c => c != '=') = '-' :: t := ht
    cases hb : flagBody tok with
    | nil =>
      rw [hb] at ht'
      cases ht'
    | cons c cs =>
      rw [hb, List.takeWhile_cons] at ht'
      by_cases hc : (c != '=') = true
      · rw [if_pos hc] at ht'
        exact ⟨cs, by rw [(List.cons.inj ht').1]⟩
      · rw [if_neg hc] at ht'
        cases ht'
  obtain ⟨r, hr⟩ := hbody
  unfold flagBody at hr
  by_cases h2 : hasPrefix tok "--" = true
  · rw [if_pos h2] at hr
    obtain ⟨b, hb⟩ := (hasPrefix_dashdash tok).1 h2
    rw [hb] at hr
    have hb' : b = '-' :: r := hr
    unfold hasPrefix
    rw [hb, hb']
    show List.isPrefixOf ['-', '-', '-'] ('-' :: '-' :: '-' :: r) = true
    simp only [List.isPrefixOf, beq_self_eq_true, Bool.and_self]
  · rw [if_neg h2] at hr
    obtain ⟨b, hb⟩ := (hasPrefix_dash tok).1 h1
    rw [hb] at hr
    have hb' : b = '-' :: r := hr
    exact absurd ((hasPrefix_dashdash tok).2 ⟨r, by rw [hb, hb']⟩) h2

theorem Get_single (exe : String) (toks : List String) (n v : String)
    (h : scan toks FlagTable.empty =
      (scan [] FlagTable.empty).map (fun t => t.over (FlagTable.empty.set n v))) :
    (Get (State.start (exe :: toks)) n).map Prod.fst = some (v, true) := by
  rw [Get_start, h, scan]
  simp [mapRead, FlagTable.over, FlagTable.set, FlagTable.empty]

theorem wrapped_data (q : Char) (s : String) :
    (String.singleton q ++ s ++ String.singleton q).data = q :: (s.data ++ [q]) := by
  simp only [String.data_append]
  rfl

theorem wrapped_no_dash (q : Char) (s : String) (hq : q = '\'' ∨ q = '"') :
    hasPrefix (String.singleton q ++ s ++ String.singleton q) "-" = false := by
  cases hp : hasPrefix (String.singleton q ++ s ++ String.singleton q) "-" with
  | false => rfl
  | true =>
    obtain ⟨t, ht⟩ := (hasPrefix_dash _).1 hp
    rw [wrapped_data] at ht
    have hc : q = '-' := (List.cons.inj ht).1
    rcases hq with hq | hq <;> rw [hq] at hc <;> exact absurd hc (by decide)

/-! ## The claims -/

/-- C1 (the code breaks it).  The scan panics when the raw value of a flag is a
lone quote character: on `-a='` and on `-a '` the slice `v[1:len(v)-1]` is
`v[1:0]`, so `initialize` does not complete and the first `Get` returns
nothing. -/
theorem scan_panics_on_lone_quote (exe name : String) :
    initialise [exe, "-a='"] = none ∧ initialise [exe, "-a", "'"] = none ∧
      Get (State.start [exe, "-a='"]) name = none ∧
      Get (State.start [exe, "-a", "'"]) name = none := by
  have h1 : initialise [exe, "-a='"] = none := by
    rw [initialise_eq_scan]
    rfl
  have h2 : initialise [exe, "-a", "'"] = none := by
    rw [initialise_eq_scan]
    rfl
  refine ⟨h1, h2, ?_, ?_⟩
  · unfold Get onceDo State.start
    simp only [Bool.false_eq_true, if_false, h1]
  · unfold Get onceDo State.start
    simp only [Bool.false_eq_true, if_false, h2]

/-- C2.  Terminator: scanning `pre ++ ["--"] ++ post` has the same outcome as
scanning `pre` alone (the same table, or the same panic); on
`-one -- val1 -two`, `Get("one")` is `("", true)` and `Get("two")` is
`("", false)`. -/
theorem terminator_stops_scan (exe : String) (pre post : List String) :
    initialise (exe :: (pre ++ ["--"] ++ post)) = initialise (exe :: pre) ∧
      (Get (State.start [exe, "-one", "--", "val1", "-two"]) "one").map Prod.fst =
        some ("", true) ∧
      (Get (State.start [exe, "-one", "--", "val1", "-two"]) "two").map Prod.fst =
        some ("", false) := by
  refine ⟨?_, ?_, ?_⟩
  · rw [initialise_eq_scan, initialise_eq_scan, List.append_assoc]
    exact scan_terminator post pre FlagTable.empty
  · rw [Get_start]
    decide
  · rw [Get_start]
    decide

/-- C3.  Inline value: for a name `n` that is non-empty, has no `=` and does
not begin with `-`, and a value `v` not wrapped in a pair of equal quotes,
scanning `-n=v` (or `--n=v`) followed by `rest` gives the table of `rest` with
the entry `n ↦ v` added unless `rest` records `n`; the outcome is a panic
exactly when scanning `rest` panics.  On `-one=val1`, `Get("one")` is
`("val1", true)`. -/
theorem inline_value (exe n v : String) (rest : List String) (hn : n ≠ "")
    (heq : '=' ∉ n.data) (hdash : hasPrefix n "-" = false)
    (hq1 : ¬ (hasPrefix v "'" = true ∧ hasSuffix v "'" = true))
    (hq2 : ¬ (hasPrefix v "\"" = true ∧ hasSuffix v "\"" = true)) :
    initialise (exe :: ("-" ++ n ++ "=" ++ v) :: rest) =
        (initialise (exe :: rest)).map (fun t => t.over (FlagTable.empty.set n v)) ∧
      initialise (exe :: ("--" ++ n ++ "=" ++ v) :: rest) =
        (initialise (exe :: rest)).map (fun t => t.over (FlagTable.empty.set n v)) ∧
      (Get (State.start [exe, "-one=val1"]) "one").map Prod.fst = some ("val1", true) := by
  have hv := unquote_plain v hq1 hq2
  refine ⟨?_, ?_, ?_⟩
  · rw [initialise_eq_scan, initialise_eq_scan]
    exact scan_single_inline n v v rest hn heq hdash hv
  · rw [initialise_eq_scan, initialise_eq_scan]
    exact scan_double_inline n v v rest heq hv
  · rw [Get_start]
    decide

/-- C4.  Lookahead value: for a name `n` that is non-empty, has no `=` and does
not begin with `-`, and a token `v` that does not begin with `-` and is not
wrapped in a pair of equal quotes, scanning `-n v` (or `--n v`) followed by
`rest` gives the table of `rest` with the entry `n ↦ v` added unless `rest`
records `n`: the value token is consumed and scanning resumes after it.  On
`-one val1`, `Get("one")` is `("val1", true)`. -/
theorem lookahead_value (exe n v : String) (rest : List String) (hn : n ≠ "")
    (heq : '=' ∉ n.data) (hdash : hasPrefix n "-" = false)
    (hv : hasPrefix v "-" = false)
    (hq1 : ¬ (hasPrefix v "'" = true ∧ hasSuffix v "'" = true))
    (hq2 : ¬ (hasPrefix v "\"" = true ∧ hasSuffix v "\"" = true)) :
    initialise (exe :: ("-" ++ n) :: v :: rest) =
        (initialise (exe :: rest)).map (fun t => t.over (FlagTable.empty.set n v)) ∧
      initialise (exe :: ("--" ++ n) :: v :: rest) =
        (initialise (exe :: rest)).map (fun t => t.over (FlagTable.empty.set n v)) ∧
      (Get (State.start [exe, "-one", "val1"]) "one").map Prod.fst = some ("val1", true) := by
  have hu := unquote_plain v hq1 hq2
  refine ⟨?_, ?_, ?_⟩
  · rw [initialise_eq_scan, initialise_eq_scan]
    exact scan_single_lookahead n v v rest heq hdash hv hu
  · rw [initialise_eq_scan, initialise_eq_scan]
    exact scan_double_lookahead n v v rest hn heq hv hu
  · rw [Get_start]
    decide

/-- C5.  A token beginning with `-` is never consumed as a value: when the scan
completes, every token that begins with `-` and lies before the first `--`
has its derived name among the keys of the table.  On `-one -three`, both
`Get("one")` and `Get("three")` are `("", true)`. -/
theorem dash_token_is_flag (exe : String) (toks : List String) (t : FlagTable) (tok : String)
    (h : initialise (exe :: toks) = some t)
    (hmem : tok ∈ toks.takeWhile (fun s => s != "--"))
    (hd : hasPrefix tok "-" = true) :
    t (derivedName tok) ≠ none ∧
      (Get (State.start [exe, "-one", "-three"]) "one").map Prod.fst = some ("", true) ∧
      (Get (State.start [exe, "-one", "-three"]) "three").map Prod.fst = some ("", true) := by
  rw [initialise_eq_scan] at h
  refine ⟨?_, ?_, ?_⟩
  · obtain ⟨nx, hnx⟩ := flagTokens_complete toks tok hmem hd
    exact (scan_key_iff toks t h _).2 ⟨(tok, nx), hnx, rfl⟩
  · rw [Get_start]
    decide
  · rw [Get_start]
    decide

/-- C6.  Quote stripping removes exactly one matching pair: for a quote
character `q` (single or double), any string `s` and a name `n` that is
non-empty, has no `=` and does not begin with `-`, the value recorded for `n`
is `s` both on `-n=qsq` and on `-n qsq`.  Nothing is unquoted twice: the raw
value `''a''` is recorded as `'a'`. -/
theorem quote_stripping (exe : String) (q : Char) (s n : String)
    (hq : q = '\'' ∨ q = '"') (hn : n ≠ "")
    (heq : '=' ∉ n.data) (hdash : hasPrefix n "-" = false) :
    (Get (State.start
        [exe, "-" ++ n ++ "=" ++ (String.singleton q ++ s ++ String.singleton q)]) n).map
        Prod.fst = some (s, true) ∧
      (Get (State.start
        [exe, "-" ++ n, String.singleton q ++ s ++ String.singleton q]) n).map
        Prod.fst = some (s, true) ∧
      (Get (State.start [exe, "-x=''a''"]) "x").map Prod.fst = some ("'a'", true) := by
  have hu : unquote (String.singleton q ++ s ++ String.singleton q) = some s :=
    unquote_wrapped _ q s.data hq (wrapped_data q s)
  refine ⟨?_, ?_, ?_⟩
  · exact Get_single exe _ n s (scan_single_inline n _ s [] hn heq hdash hu)
  · exact Get_single exe _ n s
      (scan_single_lookahead n _ s [] heq hdash (wrapped_no_dash q s hq) hu)
  · rw [Get_start]
    decide

/-- C7.  Unknown name: when the scan completes and no token beginning with `-`
has the name as its derived name, `Get(name)` returns `("", false)`; and
whenever `Get` reports `false` the value it returns is the empty string. -/
theorem unknown_name (exe : String) (toks : List String) (name : String)
    (hc : (initialise (exe :: toks)).isSome = true)
    (hno : ∀ tok ∈ toks, hasPrefix tok "-" = true → derivedName tok ≠ name) :
    (Get (State.start (exe :: toks)) name).map Prod.fst = some ("", false) ∧
      ∀ (st st' : State) (nm v : String), Get st nm = some ((v, false), st') → v = "" := by
  constructor
  · rw [initialise_eq_scan] at hc
    obtain ⟨t, ht⟩ := Option.isSome_iff_exists.1 hc
    have hk : t name = none := by
      by_contra hne
      obtain ⟨p, hp, hpk⟩ := (scan_key_iff toks t ht name).1 hne
      obtain ⟨hm, hd⟩ := mem_flagTokens toks p hp
      exact hno p.1 ((List.takeWhile_prefix _).subset hm) hd hpk
    rw [Get_start_of_scan exe toks t ht]
    simp only [mapRead, hk]
  · intro st st' nm v h
    exact mapRead_absent st'.flags nm v (Get_returns st st' nm (v, false) h).symm

/-- C8.  Last write wins: when `Get(name)` reports the name present with value
`v`, there is a rightmost flag token with that derived name before the first
`--`, and `v` is its final (quote-stripped) value.  On `-a=1 -a=2`, `Get("a")`
is `("2", true)`; on `-a=1 -a` it is `("", true)`. -/
theorem last_write_wins (exe : String) (toks : List String) (name v : String)
    (h : (Get (State.start (exe :: toks)) name).map Prod.fst = some (v, true)) :
    (∃ p, lastFlag toks name = some p ∧ flagValue p.1 p.2 = some v) ∧
      (Get (State.start [exe, "-a=1", "-a=2"]) "a").map Prod.fst = some ("2", true) ∧
      (Get (State.start [exe, "-a=1", "-a"]) "a").map Prod.fst = some ("", true) := by
  refine ⟨?_, ?_, ?_⟩
  · rw [Get_start] at h
    cases hs : scan toks FlagTable.empty with
    | none =>
      rw [hs] at h
      cases h
    | some t =>
      rw [hs] at h
      have hr : mapRead (some t) name = (v, true) := Option.some.inj h
      obtain ⟨ha, hb⟩ := scan_lookup toks FlagTable.empty t hs name
      cases hl : lastFlag toks name with
      | none =>
        have hnone : t name = none := ha hl
        simp only [mapRead, hnone] at hr
        exact absurd (Prod.mk.inj hr).2 (by decide)
      | some p =>
        obtain ⟨w, hw, htw⟩ := hb p hl
        simp only [mapRead, htw] at hr
        have : w = v := (Prod.mk.inj hr).1
        subst this
        exact ⟨p, rfl, hw⟩
  · rw [Get_start]
    decide
  · rw [Get_start]
    decide

/-- C9 (the code breaks it).  After a `Get` that ran the scan and a `Free`, a
further `Get` does not panic: reading the `nil` map yields the zero value, so
it returns `("", false)` for every name, whatever the tokens were. -/
theorem get_after_free_returns (exe : String) (toks : List String) (name name' : String) :
    ((Get (State.start (exe :: toks)) name).bind
        (fun r => Get (Free r.2) name')).map Prod.fst =
      (Get (State.start (exe :: toks)) name).map (fun _ => ("", false)) ∧
    ((Get (State.start [exe, "-a=1"]) "a").bind
        (fun r => Get (Free r.2) "a")).map Prod.fst = some ("", false) := by
  have key : ∀ tk : List String,
      ((Get (State.start (exe :: tk)) name).bind
        (fun r => Get (Free r.2) name')).map Prod.fst =
      (Get (State.start (exe :: tk)) name).map (fun _ => ("", false)) := by
    intro tk
    unfold Get onceDo State.start
    simp only [Bool.false_eq_true, if_false]
    cases initialise (exe :: tk) with
    | none => rfl
    | some t => rfl
  refine ⟨key toks, ?_⟩
  have h1 : (Get (State.start [exe, "-a=1"]) "a").map Prod.fst = some ("1", true) := by
    rw [Get_start]
    decide
  cases hg : Get (State.start [exe, "-a=1"]) "a" with
  | none =>
    rw [hg] at h1
    cases h1
  | some r =>
    unfold Get onceDo State.start at hg
    simp only [Bool.false_eq_true, if_false] at hg
    cases hi : initialise [exe, "-a=1"] with
    | none =>
      rw [hi] at hg
      cases hg
    | some t =>
      rw [hi] at hg
      cases hg
      rfl

/-- C10 as stated fails: on the single token `---x` the scan completes and
records the key `-x`, which begins with a dash. -/
theorem key_without_dash_counterexample :
    ∃ t : FlagTable, initialise ["./exe", "---x"] = some t ∧
      (t "-x").isSome = true ∧ hasPrefix "-x" "-" = true := by
  refine ⟨FlagTable.empty.set "-x" "", ?_, by decide, by decide⟩
  rw [initialise_eq_scan]
  rfl

/-- C10, amended.  When the scan completes, a key of the flag table begins
with `-` only if it is the derived name of a token that begins with `---` and
lies before the first `--`; without such a token no key has a leading dash. -/
theorem key_dash_origin (exe : String) (toks : List String) (t : FlagTable) (k : String)
    (h : initialise (exe :: toks) = some t) (hk : t k ≠ none)
    (hd : hasPrefix k "-" = true) :
    ∃ tok ∈ toks.takeWhile (fun s => s != "--"),
      hasPrefix tok "---" = true ∧ derivedName tok = k := by
  rw [initialise_eq_scan] at h
  obtain ⟨p, hp, hpk⟩ := (scan_key_iff toks t h k).1 hk
  obtain ⟨hm, hpd⟩ := mem_flagTokens toks p hp
  refine ⟨p.1, hm, derivedName_dash p.1 hpd ?_, hpk⟩
  rw [hpk]
  exact hd

/-! ## The claims at concrete inputs -/

theorem inline_value_witness :
    ("one" ≠ "" ∧ '=' ∉ "one".data ∧ hasPrefix "one" "-" = false) ∧
      initialise ("./exe" :: ("-" ++ "one" ++ "=" ++ "val1") :: ["-two"]) =
        (initialise ("./exe" :: ["-two"])).map
          (fun t => t.over (FlagTable.empty.set "one" "val1")) :=
  ⟨by decide,
    (inline_value "./exe" "one" "val1" ["-two"] (by decide) (by decide) (by decide)
      (by decide) (by decide)).1⟩

theorem lookahead_value_witness :
    ("one" ≠ "" ∧ '=' ∉ "one".data ∧ hasPrefix "one" "-" = false ∧
        hasPrefix "val1" "-" = false) ∧
      initialise ("./exe" :: ("-" ++ "one") :: "val1" :: ["-two"]) =
        (initialise ("./exe" :: ["-two"])).map
          (fun t => t.over (FlagTable.empty.set "one" "val1")) :=
  ⟨by decide,
    (lookahead_value "./exe" "one" "val1" ["-two"] (by decide) (by decide) (by decide)
      (by decide) (by decide) (by decide)).1⟩

theorem dash_token_is_flag_witness :
    ("-three" ∈ ["-one", "-three"].takeWhile (fun s => s != "--") ∧
        hasPrefix "-three" "-" = true) ∧
      ((FlagTable.empty.set "one" "").set "three" "") (derivedName "-three") ≠ none :=
  ⟨by decide,
    (dash_token_is_flag "./exe" ["-one", "-three"]
      ((FlagTable.empty.set "one" "").set "three" "") "-three"
      (by rw [initialise_eq_scan]; rfl) (by decide) (by decide)).1⟩

theorem quote_stripping_witness :
    ("one" ≠ "" ∧ '=' ∉ "one".data ∧ hasPrefix "one" "-" = false) ∧
      (Get (State.start
        ["./exe", "-" ++ "one" ++ "=" ++
          (String.singleton '\'' ++ "val1" ++ String.singleton '\'')]) "one").map
        Prod.fst = some ("val1", true) :=
  ⟨by decide,
    (quote_stripping "./exe" '\'' "val1" "one" (Or.inl rfl) (by decide) (by decide)
      (by decide)).1⟩

theorem unknown_name_witness :
    (∀ tok ∈ ["-a=1", "b"], hasPrefix tok "-" = true → derivedName tok ≠ "c") ∧
      (Get (State.start ("./exe" :: ["-a=1", "b"])) "c").map Prod.fst = some ("", false) :=
  ⟨by decide,
    (unknown_name "./exe" ["-a=1", "b"] "c" (by rw [initialise_eq_scan]; rfl)
      (by decide)).1⟩

theorem last_write_wins_witness :
    ∃ p, lastFlag ["-a=1", "-a=2"] "a" = some p ∧ flagValue p.1 p.2 = some "2" :=
  (last_write_wins "./exe" ["-a=1", "-a=2"] "a" "2" (by rw [Get_start]; decide)).1

theorem key_dash_origin_witness :
    hasPrefix "-x" "-" = true ∧
      ∃ tok ∈ ["---x"].takeWhile (fun s => s != "--"),
        hasPrefix tok "---" = true ∧ derivedName tok = "-x" :=
  ⟨by decide,
    key_dash_origin "./exe" ["---x"] (FlagTable.empty.set "-x" "") "-x"
      (by rw [initialise_eq_scan]; rfl) (by decide) (by decide)⟩

/-! ## Further facts about the scan -/

theorem not_mem_takeWhile_eq (l : List Char) : '=' ∉ l.takeWhile (fun c => c != '=') := by
  intro h
  have := List.mem_takeWhile_imp h
  simp at this

theorem takesNext_dash (c a : String) (ha : hasPrefix a "-" = true) :
    takesNext c (some a) = false := by
  unfold takesNext
  simp [ha]

theorem flagValue_dash (c a : String) (ha : hasPrefix a "-" = true) :
    flagValue c (some a) = flagValue c none := by
  unfold flagValue rawValue
  rw [takesNext_dash c a ha, takesNext_none]
  simp only [Bool.false_eq_true, if_false]

/-- Two flag tokens with the same body are scanned alike, wherever they
stand. -/
theorem scan_congr_body (a b : String) (ha0 : a ≠ "--") (hb0 : b ≠ "--")
    (ha1 : hasPrefix a "-" = true) (hb1 : hasPrefix b "-" = true)
    (hbody : flagBody a = flagBody b) (post : List String) :
    ∀ (pre : List String) (t0 : FlagTable),
      scan (pre ++ a :: post) t0 = scan (pre ++ b :: post) t0 := by
  have hname : derivedName a = derivedName b := by
    unfold derivedName
    rw [hbody]
  have htakes : ∀ nx, takesNext a nx = takesNext b nx := by
    intro nx
    unfold takesNext
    rw [hbody]
  have hval : ∀ nx, flagValue a nx = flagValue b nx := by
    intro nx
    unfold flagValue rawValue
    rw [hbody, htakes nx]
  have base : ∀ t0, scan (a :: post) t0 = scan (b :: post) t0 := by
    intro t0
    rw [scan_cons a, scan_cons b, if_neg ha0, if_neg hb0, if_pos ha1, if_pos hb1, hname,
      htakes, hval]
  intro pre
  induction pre using scan_induction with
  | hnil => exact base
  | hcons c rest ih1 ih2 =>
    intro t0
    rw [List.cons_append, List.cons_append, scan_cons c _ t0, scan_cons c (rest ++ b :: post) t0]
    by_cases h0 : c = "--"
    · rw [if_pos h0, if_pos h0]
    · rw [if_neg h0, if_neg h0]
      by_cases h1 : hasPrefix c "-" = true
      · rw [if_pos h1, if_pos h1]
        cases rest with
        | nil =>
          simp only [List.nil_append, List.head?_cons, flagValue_dash c a ha1,
            flagValue_dash c b hb1, takesNext_dash c a ha1, takesNext_dash c b hb1,
            Bool.false_eq_true, if_false]
          cases flagValue c none with
          | none => rfl
          | some v => exact base _
        | cons nxt rest' =>
          simp only [List.cons_append, List.head?_cons, List.tail_cons]
          cases flagValue c (some nxt) with
          | none => rfl
          | some v =>
            show scan _ _ = scan _ _
            by_cases h2 : takesNext c (some nxt) = true
            · rw [if_pos h2, if_pos h2]
              exact ih2 _
            · rw [if_neg h2, if_neg h2]
              exact ih1 _
      · rw [if_neg h1, if_neg h1]
        exact ih1 t0

theorem hasPrefix_dash_ne (t : String) (h : hasPrefix t "-" = false) : t ≠ "--" := by
  intro e
  rw [e] at h
  exact absurd h (by decide)

/-! ## More claims -/

/-- C11.  No key of the flag table contains `=`: when the scan completes,
every name recorded in the table is free of the character `=`. -/
theorem key_without_equals (exe : String) (toks : List String) (t : FlagTable) (k : String)
    (h : initialise (exe :: toks) = some t) (hk : t k ≠ none) : '=' ∉ k.data := by
  rw [initialise_eq_scan] at h
  obtain ⟨p, _, hpk⟩ := (scan_key_iff toks t h k).1 hk
  rw [← hpk]
  exact not_mem_takeWhile_eq (flagBody p.1)

/-- C14.  One dash and two dashes are equivalent: for a non-empty `x` that does
not begin with `-` (it may hold `=value`), scanning `pre ++ ["-" ++ x] ++ post`
and scanning `pre ++ ["--" ++ x] ++ post` have the same outcome, the same table
or a panic in both. -/
theorem one_or_two_dashes (exe x : String) (pre post : List String) (hx : x ≠ "")
    (hd : hasPrefix x "-" = false) :
    initialise (exe :: (pre ++ ["-" ++ x] ++ post)) =
      initialise (exe :: (pre ++ ["--" ++ x] ++ post)) := by
  have hd' : hasPrefix ⟨x.data⟩ "-" = false := hd
  obtain ⟨a0, a1, ab⟩ := flag_single ("-" ++ x) x.data (single_data x) hd'
  obtain ⟨b0, b1, bb⟩ := flag_double ("--" ++ x) x.data (double_data x) (data_ne_nil x hx)
  rw [initialise_eq_scan, initialise_eq_scan, List.append_assoc, List.append_assoc]
  exact scan_congr_body _ _ a0 b0 a1 b1 (ab.trans bb.symm) post pre FlagTable.empty

/-- C15.  Empty flag name: the token `-` is not the terminator but a flag whose
name is the empty string.  On `-`, `Get("")` is `("", true)`; on `- v`, with `v`
not beginning with `-` and not wrapped in a pair of equal quotes, `Get("")` is
`(v, true)`; on `- -x`, `Get("")` and `Get("x")` are both `("", true)`. -/
theorem empty_flag_name (exe v : String) (hv : hasPrefix v "-" = false)
    (hq1 : ¬ (hasPrefix v "'" = true ∧ hasSuffix v "'" = true))
    (hq2 : ¬ (hasPrefix v "\"" = true ∧ hasSuffix v "\"" = true)) :
    (Get (State.start [exe, "-"]) "").map Prod.fst = some ("", true) ∧
      (Get (State.start [exe, "-", v]) "").map Prod.fst = some (v, true) ∧
      (Get (State.start [exe, "-", "-x"]) "").map Prod.fst = some ("", true) ∧
      (Get (State.start [exe, "-", "-x"]) "x").map Prod.fst = some ("", true) := by
  refine ⟨?_, ?_, ?_, ?_⟩
  · rw [Get_start]
    decide
  · have hs := scan_single_lookahead "" v v [] (by decide) (by decide) hv
      (unquote_plain v hq1 hq2)
    have e : ("-" ++ "" : String) = "-" := by decide
    rw [e] at hs
    exact Get_single exe _ "" v hs
  · rw [Get_start]
    decide
  · rw [Get_start]
    decide

/-- C16.  The documented example: with
`./exe -flag1 --flag2 value2 -flag3='value3' -- -flag4=value4`, `Get("flag1")`
is `("", true)`, `Get("flag2")` is `("value2", true)`, `Get("flag3")` is
`("value3", true)` and `Get("flag4")` is `("", false)`. -/
theorem documented_example :
    (Get (State.start
        ["./exe", "-flag1", "--flag2", "value2", "-flag3='value3'", "--", "-flag4=value4"])
        "flag1").map Prod.fst = some ("", true) ∧
      (Get (State.start
        ["./exe", "-flag1", "--flag2", "value2", "-flag3='value3'", "--", "-flag4=value4"])
        "flag2").map Prod.fst = some ("value2", true) ∧
      (Get (State.start
        ["./exe", "-flag1", "--flag2", "value2", "-flag3='value3'", "--", "-flag4=value4"])
        "flag3").map Prod.fst = some ("value3", true) ∧
      (Get (State.start
        ["./exe", "-flag1", "--flag2", "value2", "-flag3='value3'", "--", "-flag4=value4"])
        "flag4").map Prod.fst = some ("", false) := by
  refine ⟨?_, ?_, ?_, ?_⟩ <;> rw [Get_start] <;> decide

/-- C18.  Positional tokens are skipped: for a token `tok` that does not begin
with `-`, scanning `[tok] ++ rest` has the same outcome as scanning `rest`.  A
positional token that follows a flag with an inline value is not consumed, adds
no entry and does not stop the scan: on `pos -a=1 x -b`, `a` holds `1`, `b` is
present, and neither `pos` nor `x` is a key. -/
theorem positional_skipped (exe tok : String) (rest : List String)
    (h : hasPrefix tok "-" = false) :
    initialise (exe :: ([tok] ++ rest)) = initialise (exe :: rest) ∧
      (Get (State.start [exe, "pos", "-a=1", "x", "-b"]) "a").map Prod.fst =
        some ("1", true) ∧
      (Get (State.start [exe, "pos", "-a=1", "x", "-b"]) "b").map Prod.fst =
        some ("", true) ∧
      (Get (State.start [exe, "pos", "-a=1", "x", "-b"]) "pos").map Prod.fst =
        some ("", false) ∧
      (Get (State.start [exe, "pos", "-a=1", "x", "-b"]) "x").map Prod.fst =
        some ("", false) := by
  refine ⟨?_, ?_, ?_, ?_, ?_⟩
  · rw [initialise_eq_scan, initialise_eq_scan, List.singleton_append, scan_cons,
      if_neg (hasPrefix_dash_ne tok h), if_neg (by rw [h]; exact Bool.false_ne_true)]
  · rw [Get_start]
    decide
  · rw [Get_start]
    decide
  · rw [Get_start]
    decide
  · rw [Get_start]
    decide

/-- C20.  `Free` before the first `Get` does not disable the scanner: in the
state at program start, `Free` changes nothing, so `Get(name)` after it runs
the scan and returns what it would have returned without the `Free`. -/
theorem free_before_first_get (args : List String) (exe name : String) :
    Free (State.start args) = State.start args ∧
      Get (Free (State.start args)) name = Get (State.start args) name ∧
      (Get (Free (State.start [exe, "-a=1"])) "a").map Prod.fst = some ("1", true) := by
  refine ⟨rfl, rfl, ?_⟩
  show (Get (State.start [exe, "-a=1"]) "a").map Prod.fst = some ("1", true)
  rw [Get_start]
  decide

/-! ## The lifecycle -/

/-- Once `once` has fired, `Get` only reads the table. -/
theorem Get_of_done (st : State) (name : String) (h : st.onceDone = true) :
    Get st name = some (mapRead st.flags name, st) := by
  unfold Get onceDo
  rw [if_pos h]

/-- After a `Get` that returned, `once` has fired. -/
theorem Get_done (st st1 : State) (name : String) (r : String × Bool)
    (h : Get st name = some (r, st1)) : st1.onceDone = true := by
  unfold Get onceDo at h
  by_cases hd : st.onceDone = true
  · rw [if_pos hd] at h
    cases h
    exact hd
  · rw [if_neg hd] at h
    cases hi : initialise st.args with
    | none =>
      rw [hi] at h
      cases h
    | some t =>
      rw [hi] at h
      cases h
      rfl

/-- C12.  The scan runs at most once and `Get` is read-only: after a `Get` that
returned, the guard is set, and a later `Get`, even with `os.Args` replaced by
any other sequence, returns a result, leaves guard and table as they were, and
for the same name returns the same pair as the first `Get` did. -/
theorem get_is_read_only (st st1 : State) (name : String) (r : String × Bool)
    (h : Get st name = some (r, st1)) :
    st1.onceDone = true ∧
      (∀ (args' : List String) (name' : String),
        Get { st1 with args := args' } name' =
          some (mapRead st1.flags name', { st1 with args := args' })) ∧
      (∀ args' : List String,
        Get { st1 with args := args' } name = some (r, { st1 with args := args' })) := by
  have hd := Get_done st st1 name r h
  have hr := Get_returns st st1 name r h
  refine ⟨hd, ?_, ?_⟩
  · intro args' name'
    exact Get_of_done { st1 with args := args' } name' hd
  · intro args'
    rw [hr]
    exact Get_of_done { st1 with args := args' } name hd

/-- C13.  `Free` only discards the table: it sets `flags` to `nil` and leaves
the guard and `os.Args` unchanged, so `Free` twice is `Free` once; and after a
`Get` that returned and a `Free`, a later `Get` does not run the scan again:
it returns `("", false)` and leaves the table `nil`. -/
theorem free_only_discards_table (st st1 : State) (name name' : String)
    (r : String × Bool) (h : Get st name = some (r, st1)) :
    (Free st).flags = none ∧ (Free st).onceDone = st.onceDone ∧
      (Free st).args = st.args ∧ Free (Free st) = Free st ∧
      Get (Free st1) name' = some (("", false), Free st1) ∧
      (Free st1).flags = none := by
  refine ⟨rfl, rfl, rfl, rfl, ?_, rfl⟩
  exact Get_of_done (Free st1) name' (Get_done st st1 name r h)

/-! ## Values and totality -/

theorem hasPrefix_char (v p : String) (q : Char) (hp : p.data = [q])
    (h : hasPrefix v p = true) : ∃ t, v.data = q :: t := by
  unfold hasPrefix at h
  rw [hp] at h
  cases hv : v.data with
  | nil =>
    rw [hv] at h
    simp [List.isPrefixOf] at h
  | cons c cs =>
    rw [hv] at h
    simp only [List.isPrefixOf, Bool.and_true, beq_iff_eq] at h
    exact ⟨cs, by rw [h]⟩

theorem slice_ne_none (s : String) (lo hi : Int) (h1 : 0 ≤ lo) (h2 : lo ≤ hi)
    (h3 : hi ≤ len s) : slice s lo hi ≠ none := by
  unfold slice
  rw [if_pos ⟨h1, h2, h3⟩]
  exact Option.some_ne_none _

theorem len_ge_two (v : String) (q : Char) (t : List Char) (hv : v.data = q :: t)
    (hne : v ≠ ⟨[q]⟩) : 2 ≤ len v := by
  unfold len
  cases t with
  | nil =>
    exact absurd (String.ext hv) hne
  | cons c cs =>
    rw [hv]
    simp only [List.length_cons]
    omega

/-- Lines 77-80 panic only on a value that is a lone quote character. -/
theorem unquote_ne_none (v : String) (h1 : v ≠ "'") (h2 : v ≠ "\"") : unquote v ≠ none := by
  unfold unquote
  split
  · rename_i hc
    have hlen : 2 ≤ len v := by
      simp only [Bool.or_eq_true, Bool.and_eq_true] at hc
      rcases hc with hc | hc
      · obtain ⟨t, ht⟩ := hasPrefix_char v "'" '\'' rfl hc.1
        exact len_ge_two v '\'' t ht h1
      · obtain ⟨t, ht⟩ := hasPrefix_char v "\"" '"' rfl hc.1
        exact len_ge_two v '"' t ht h2
    exact slice_ne_none v 1 (len v - 1) (by omega) (by omega) (by omega)
  · exact Option.some_ne_none _

/-- The scan completes when no flag token has a value on which removing the
quotes panics. -/
theorem scan_total : ∀ (toks : List String) (t0 : FlagTable),
    (∀ p ∈ flagTokens toks, flagValue p.1 p.2 ≠ none) → (scan toks t0).isSome = true := by
  intro toks
  induction toks using scan_induction with
  | hnil =>
    intro t0 _
    rw [scan]
    rfl
  | hcons a rest ih1 ih2 =>
    intro t0 h
    rw [scan_cons]
    rw [flagTokens_cons] at h
    by_cases h0 : a = "--"
    · rw [if_pos h0]
      rfl
    · rw [if_neg h0] at h ⊢
      by_cases h1 : hasPrefix a "-" = true
      · rw [if_pos h1] at h ⊢
        have hrest : ∀ p ∈ flagTokens rest, flagValue p.1 p.2 ≠ none :=
          fun p hp => h p (List.mem_cons_of_mem _ hp)
        cases hv : flagValue a rest.head? with
        | none => exact absurd hv (h (a, rest.head?) (List.mem_cons_self _ _))
        | some v =>
          show (scan _ _).isSome = true
          by_cases hn : takesNext a rest.head? = true
          · rw [if_pos hn]
            apply ih2
            have := flagTokens_rem a rest
            rw [if_pos hn] at this
            rw [this]
            exact hrest
          · rw [if_neg hn]
            exact ih1 _ hrest
      · rw [if_neg h1] at h ⊢
        exact ih1 t0 h

/-- C17.  Values not wrapped in a pair of equal quotes are recorded verbatim:
for a flag token whose raw value `v` (what follows its first `=`, or the token
it takes by lookahead) does not both begin and end with `'` and does not both
begin and end with `"`, removing the quotes leaves `v` as it is, and the scan
records exactly `v` under the derived name of the token.  So `'abc"`, `'abc`,
`abc'` and `a'b"c` are all recorded unchanged. -/
theorem unwrapped_value_verbatim (exe a v : String) (rest : List String)
    (h0 : a ≠ "--") (h1 : hasPrefix a "-" = true) (hv : rawValue a rest.head? = v)
    (hq1 : ¬ (hasPrefix v "'" = true ∧ hasSuffix v "'" = true))
    (hq2 : ¬ (hasPrefix v "\"" = true ∧ hasSuffix v "\"" = true)) :
    unquote v = some v ∧
      initialise (exe :: a :: rest) =
        (initialise (exe :: (if takesNext a rest.head? then rest.tail else rest))).map
          (fun t => t.over (FlagTable.empty.set (derivedName a) v)) ∧
      (Get (State.start [exe, "-a='abc\""]) "a").map Prod.fst = some ("'abc\"", true) ∧
      (Get (State.start [exe, "-a", "'abc"]) "a").map Prod.fst = some ("'abc", true) ∧
      (Get (State.start [exe, "-a=abc'"]) "a").map Prod.fst = some ("abc'", true) ∧
      (Get (State.start [exe, "-a", "a'b\"c"]) "a").map Prod.fst = some ("a'b\"c", true) := by
  have hu := unquote_plain v hq1 hq2
  refine ⟨hu, ?_, ?_, ?_, ?_, ?_⟩
  · rw [initialise_eq_scan, initialise_eq_scan, scan_cons, if_neg h0, if_pos h1]
    unfold flagValue
    rw [hv, hu]
    exact scan_over _ _
  · rw [Get_start]
    decide
  · rw [Get_start]
    decide
  · rw [Get_start]
    decide
  · rw [Get_start]
    decide

/-- C19.  Conditional totality: when no flag token before the first `--` has a
raw value that is exactly the one-character string `'` or `"`, the scan
completes with a table and the first `Get` returns, for every name.  A slice
out of range is a panic in the model and the index `os.Args[i+1]` is read under
its bound, so completion means every slice and index was in range; the loop
itself is total. -/
theorem conditional_totality (exe : String) (toks : List String)
    (h : ∀ p ∈ flagTokens toks, rawValue p.1 p.2 ≠ "'" ∧ rawValue p.1 p.2 ≠ "\"") :
    (initialise (exe :: toks)).isSome = true ∧
      ∀ name : String, (Get (State.start (exe :: toks)) name).isSome = true := by
  have hs : (scan toks FlagTable.empty).isSome = true :=
    scan_total toks FlagTable.empty
      (fun p hp => unquote_ne_none (rawValue p.1 p.2) (h p hp).1 (h p hp).2)
  constructor
  · rw [initialise_eq_scan]
    exact hs
  · intro name
    have hg := Get_start exe toks name
    cases hsc : scan toks FlagTable.empty with
    | none =>
      rw [hsc] at hs
      cases hs
    | some t =>
      rw [hsc] at hg
      cases hget : Get (State.start (exe :: toks)) name with
      | none =>
        rw [hget] at hg
        cases hg
      | some r => rfl

/-! ## More claims at concrete inputs -/

/-- The first `Get` of a program run, with the state it leaves. -/
theorem Get_start_eq (exe : String) (toks : List String) (t : FlagTable)
    (h : scan toks FlagTable.empty = some t) (name : String) :
    Get (State.start (exe :: toks)) name =
      some (mapRead (some t) name,
        { args := exe :: toks, flags := some t, onceDone := true }) := by
  unfold Get onceDo State.start
  simp only [Bool.false_eq_true, if_false, initialise_eq_scan, h]

theorem key_without_equals_witness :
    (FlagTable.empty.set "a" "b=c") "a" ≠ none ∧ '=' ∉ "a".data :=
  ⟨by decide,
    key_without_equals "./exe" ["-a=b=c"] (FlagTable.empty.set "a" "b=c") "a"
      (by rw [initialise_eq_scan]; rfl) (by decide)⟩

theorem get_is_read_only_witness :
    Get { args := ["other", "-a='"], flags := some (FlagTable.empty.set "a" "1"),
          onceDone := true } "a" =
      some (("1", true),
        { args := ["other", "-a='"], flags := some (FlagTable.empty.set "a" "1"),
          onceDone := true }) :=
  (get_is_read_only (State.start ["./exe", "-a=1"])
    { args := ["./exe", "-a=1"], flags := some (FlagTable.empty.set "a" "1"),
      onceDone := true }
    "a" ("1", true) (Get_start_eq "./exe" ["-a=1"] _ rfl "a")).2.2 ["other", "-a='"]

theorem free_only_discards_table_witness :
    Get (Free { args := ["./exe", "-a=1"], flags := some (FlagTable.empty.set "a" "1"),
                onceDone := true }) "a" =
      some (("", false),
        Free { args := ["./exe", "-a=1"], flags := some (FlagTable.empty.set "a" "1"),
               onceDone := true }) :=
  (free_only_discards_table (State.start ["./exe", "-a=1"])
    { args := ["./exe", "-a=1"], flags := some (FlagTable.empty.set "a" "1"),
      onceDone := true }
    "a" "a" ("1", true) (Get_start_eq "./exe" ["-a=1"] _ rfl "a")).2.2.2.2.1

theorem one_or_two_dashes_witness :
    ("a=1" ≠ "" ∧ hasPrefix "a=1" "-" = false) ∧
      initialise ("./exe" :: (["-b"] ++ ["-" ++ "a=1"] ++ ["c"])) =
        initialise ("./exe" :: (["-b"] ++ ["--" ++ "a=1"] ++ ["c"])) :=
  ⟨by decide, one_or_two_dashes "./exe" "a=1" ["-b"] ["c"] (by decide) (by decide)⟩

theorem empty_flag_name_witness :
    hasPrefix "val" "-" = false ∧
      (Get (State.start ["./exe", "-", "val"]) "").map Prod.fst = some ("val", true) :=
  ⟨by decide,
    (empty_flag_name "./exe" "val" (by decide) (by decide) (by decide)).2.1⟩

theorem unwrapped_value_verbatim_witness :
    ("-a='abc" ≠ "--" ∧ hasPrefix "-a='abc" "-" = true ∧
        rawValue "-a='abc" ([] : List String).head? = "'abc") ∧
      unquote "'abc" = some "'abc" :=
  ⟨by decide,
    (unwrapped_value_verbatim "./exe" "-a='abc" "'abc" [] (by decide) (by decide)
      (by decide) (by decide) (by decide)).1⟩

theorem positional_skipped_witness :
    hasPrefix "pos" "-" = false ∧
      initialise ("./exe" :: (["pos"] ++ ["-a"])) = initialise ("./exe" :: ["-a"]) :=
  ⟨by decide, (positional_skipped "./exe" "pos" ["-a"] (by decide)).1⟩

theorem conditional_totality_witness :
    (∀ p ∈ flagTokens ["-a", "'b'", "--c=x", "--", "-d='"],
        rawValue p.1 p.2 ≠ "'" ∧ rawValue p.1 p.2 ≠ "\"") ∧
      (initialise ("./exe" :: ["-a", "'b'", "--c=x", "--", "-d='"])).isSome = true :=
  ⟨by decide,
    (conditional_totality "./exe" ["-a", "'b'", "--c=x", "--", "-d='"] (by decide)).1⟩

end Flagspy
